import Mathlib

/-
Verification development for the resource-bounded model cache of the
torchani service (`app/core/model_manager.py`).

The Python `ModelManager` keeps two insertion-ordered dictionaries,
`models_in_memory : name -> model object` and `model_last_used : name -> float`,
and manipulates them with `get_model` (acquire), `_load_model`, `_unload_model`
(evict), `_evict_oldest_model`, `get_model_context` (scoped acquire with a
`finally` timestamp refresh, i.e. release), and `close`.

The shallow embedding below represents each dictionary as an association list
in insertion order (Python dicts preserve insertion order; assignment to an
existing key updates in place, assignment to a fresh key appends).  External
effects are oracles in `Env`:
  - `gauge i` is the value returned by the i-th call to
    `_get_gpu_memory_usage()` during one operation (a fraction, as a rational);
  - `threshold` is `settings.gpu_memory_threshold`;
  - `maxLoaded` is `settings.model_max_loaded`;
  - `now` is the `time.time()` reading used for last-used updates;
  - `redisOk` says whether the Redis client is reachable: when false, every
    `setex`/`expire`/`get`/`delete` call raises (modelled as `redisError`);
  - `loaderOk name` says whether the torchani loader
    (`torchani.models.<name>(...)` followed by `.to(device).double()`) succeeds;
  - `mkHandle name` is the (opaque) model object the loader produces.
Each operation returns an `Outcome`: a result (`Except`, errors model raised
exceptions), the state of the two dictionaries after the call, and a trace of
observable events (evictions, loader invocations, Redis calls) in the order
they are issued.

The two `while` loops of `_load_model` are given explicit fuel
(`residents.length + 1`, which we prove sufficient on well-formed states);
fuel exhaustion returns the `diverged` error, which models actual
non-termination of the Python loop (reachable only when the two dictionaries
are out of sync, or when `model_max_loaded = 0`).
-/

/-- A raised Python exception, as seen by a caller of the cache. -/
inductive CacheError where
  /-- `ValueError(f"Unknown model: ...")` raised and re-raised by `_load_model`. -/
  | unknownModel
  /-- the torchani loader (or device placement) raised. -/
  | loadFailure
  /-- the Redis client raised (store unreachable). -/
  | redisError
  /-- `del model_last_used[name]` on a missing key (`KeyError`). -/
  | keyError
  /-- `min()` over an empty `model_last_used` (`ValueError`). -/
  | valueErrorEmptyMin
  /-- fuel exhaustion: the corresponding Python `while` loop never exits. -/
  | diverged
deriving DecidableEq

/-- Observable events of one cache operation, in issue order. -/
inductive Event where
  | evict (name : String)
  | loaderCall (name : String)
  | redisGet (name : String)
  | redisExpire (name : String)
  | redisSetex (name : String)
  | redisDelete (name : String)
deriving DecidableEq

/-- The two bookkeeping dictionaries of `ModelManager`, as insertion-ordered
association lists: `residents` is `models_in_memory` (values are opaque model
handles), `lastUsed` is `model_last_used`. -/
structure CacheState where
  residents : List (String × Nat)
  lastUsed : List (String × ℚ)
deriving DecidableEq

/-- Oracles for the external world during one cache operation. -/
structure Env where
  maxLoaded : Nat
  threshold : ℚ
  gauge : Nat → ℚ
  now : ℚ
  redisOk : Bool
  loaderOk : String → Bool
  mkHandle : String → Nat

/-- Result of one cache operation: raised-or-returned value, final dictionary
state, and the trace of observable events. -/
structure Outcome (α : Type) where
  res : Except CacheError α
  state : CacheState
  trace : List Event

/-- Results of cache operations can be compared, so that the model can be
evaluated on concrete inputs. -/
instance {α : Type} [DecidableEq α] : DecidableEq (Except CacheError α) := fun a b =>
  match a, b with
  | .ok x, .ok y =>
    if h : x = y then .isTrue (by rw [h]) else .isFalse (by simp [h])
  | .error x, .error y =>
    if h : x = y then .isTrue (by rw [h]) else .isFalse (by simp [h])
  | .ok _, .error _ => .isFalse (by simp)
  | .error _, .ok _ => .isFalse (by simp)

/-- Keys of an association list, in order. -/
def keysOf {α : Type} (l : List (String × α)) : List String :=
  l.map Prod.fst

/-- Dictionary read: value at the first matching key (`d[k]` / `k in d`). -/
def lookupKey {α : Type} (k : String) : List (String × α) → Option α
  | [] => none
  | (k', v) :: rest => if k' = k then some v else lookupKey k rest

/-- Dictionary removal of the first matching entry (`del d[k]`). -/
def eraseKey {α : Type} (k : String) : List (String × α) → List (String × α)
  | [] => []
  | (k', v) :: rest => if k' = k then rest else (k', v) :: eraseKey k rest

/-- Dictionary assignment `d[k] = v`: update in place if present, else append. -/
def updateKey {α : Type} (k : String) (v : α) : List (String × α) → List (String × α)
  | [] => [(k, v)]
  | (k', v') :: rest => if k' = k then (k, v) :: rest else (k', v') :: updateKey k v rest

/-- Inner fold of `min(model_last_used, key=model_last_used.get)`: running
first-strict-minimum over the remaining entries (Python `min` keeps the first
of equally small elements). -/
def argminGo (k : String) (v : ℚ) : List (String × ℚ) → String
  | [] => k
  | (k', v') :: rest => if v' < v then argminGo k' v' rest else argminGo k v rest

/-- `min(model_last_used, key=model_last_used.get)`: the first key attaining
the minimal value, `none` on the empty dictionary (where Python raises). -/
def argminKey : List (String × ℚ) → Option String
  | [] => none
  | (k, v) :: rest => some (argminGo k v rest)

/-- The `if/elif` chain of `_load_model`: the names the code can construct. -/
def registered (name : String) : Bool :=
  name == "ANI1ccx" || name == "ANI2x" || name == "ANI1x"

/-- `ModelManager._unload_model`: early return if not resident; otherwise
delete from both dictionaries, then `redis_client.delete(...)` (which raises
when the store is unreachable — after the dictionaries were already updated). -/
def unloadModel (env : Env) (name : String) (st : CacheState) : Outcome Unit :=
  match lookupKey name st.residents with
  | none => ⟨.ok (), st, []⟩
  | some _ =>
    match lookupKey name st.lastUsed with
    | none =>
      ⟨.error .keyError, ⟨eraseKey name st.residents, st.lastUsed⟩, []⟩
    | some _ =>
      if env.redisOk then
        ⟨.ok (), ⟨eraseKey name st.residents, eraseKey name st.lastUsed⟩, [.redisDelete name]⟩
      else
        ⟨.error .redisError, ⟨eraseKey name st.residents, eraseKey name st.lastUsed⟩,
          [.redisDelete name]⟩

/-- `ModelManager._evict_oldest_model`: no-op when nothing is resident, else
unload the key with minimal last-used time. -/
def evictOldest (env : Env) (st : CacheState) : Outcome Unit :=
  if st.residents = [] then ⟨.ok (), st, []⟩
  else
    match argminKey st.lastUsed with
    | none => ⟨.error .valueErrorEmptyMin, st, []⟩
    | some oldest =>
      let o := unloadModel env oldest st
      ⟨o.res, o.state, .evict oldest :: o.trace⟩

/-- The memory-pressure loop of `_load_model`:
`while _check_memory_pressure() and models_in_memory: _evict_oldest_model()`.
`i` indexes successive gauge readings; `fuel` bounds the iterations. -/
def pressureLoop (env : Env) : Nat → Nat → CacheState → Outcome Unit
  | 0, _, st => ⟨.error .diverged, st, []⟩
  | fuel + 1, i, st =>
    if env.threshold < env.gauge i ∧ st.residents ≠ [] then
      let o := evictOldest env st
      match o.res with
      | .error e => ⟨.error e, o.state, o.trace⟩
      | .ok _ =>
        let o2 := pressureLoop env fuel (i + 1) o.state
        ⟨o2.res, o2.state, o.trace ++ o2.trace⟩
    else ⟨.ok (), st, []⟩

/-- The capacity loop of `_load_model`:
`while len(models_in_memory) >= settings.model_max_loaded: _evict_oldest_model()`. -/
def capacityLoop (env : Env) : Nat → CacheState → Outcome Unit
  | 0, st => ⟨.error .diverged, st, []⟩
  | fuel + 1, st =>
    if env.maxLoaded ≤ st.residents.length then
      let o := evictOldest env st
      match o.res with
      | .error e => ⟨.error e, o.state, o.trace⟩
      | .ok _ =>
        let o2 := capacityLoop env fuel o.state
        ⟨o2.res, o2.state, o.trace ++ o2.trace⟩
    else ⟨.ok (), st, []⟩

/-- The pressure-loop phase of `_load_model`, with fuel sufficient for every
well-formed state (the Python loop runs unboundedly; on well-formed states it
performs at most `residents.length` iterations). -/
def loadPressure (env : Env) (st : CacheState) : Outcome Unit :=
  pressureLoop env (st.residents.length + 1) 0 st

/-- The capacity-loop phase of `_load_model`, with fuel sufficient for every
well-formed state when `maxLoaded > 0` (with `maxLoaded = 0` the Python loop
never exits; the fuel version returns `diverged`). -/
def loadCapacity (env : Env) (st : CacheState) : Outcome Unit :=
  capacityLoop env (st.residents.length + 1) st

/-- `ModelManager._load_model`: run the pressure loop, then the capacity loop,
then construct the model (raising `ValueError` for unregistered names and
`loadFailure` when the loader raises), insert into both dictionaries, and
finally `redis_client.setex(...)` the metadata (which raises when the store is
unreachable — after the dictionaries were already updated). -/
def loadModel (env : Env) (name : String) (st : CacheState) : Outcome Nat :=
  let o1 := loadPressure env st
  match o1.res with
  | .error e => ⟨.error e, o1.state, o1.trace⟩
  | .ok _ =>
    let o2 := loadCapacity env o1.state
    match o2.res with
    | .error e => ⟨.error e, o2.state, o1.trace ++ o2.trace⟩
    | .ok _ =>
      if registered name then
        if env.loaderOk name then
          if env.redisOk then
            ⟨.ok (env.mkHandle name),
              ⟨updateKey name (env.mkHandle name) o2.state.residents,
               updateKey name env.now o2.state.lastUsed⟩,
              o1.trace ++ o2.trace ++ [.loaderCall name, .redisSetex name]⟩
          else
            ⟨.error .redisError,
              ⟨updateKey name (env.mkHandle name) o2.state.residents,
               updateKey name env.now o2.state.lastUsed⟩,
              o1.trace ++ o2.trace ++ [.loaderCall name, .redisSetex name]⟩
        else ⟨.error .loadFailure, o2.state, o1.trace ++ o2.trace ++ [.loaderCall name]⟩
      else ⟨.error .unknownModel, o2.state, o1.trace ++ o2.trace⟩

/-- `ModelManager.get_model` (acquire): if resident, refresh the last-used
time and the Redis TTL (`expire` raises when the store is unreachable — after
the timestamp was already updated) and return the stored handle; otherwise
read the Redis metadata (raises when unreachable) and call `_load_model`
(both the metadata-hit and metadata-miss branches do exactly that). -/
def getModel (env : Env) (name : String) (st : CacheState) : Outcome Nat :=
  match lookupKey name st.residents with
  | some h =>
    if env.redisOk then
      ⟨.ok h, ⟨st.residents, updateKey name env.now st.lastUsed⟩, [.redisExpire name]⟩
    else
      ⟨.error .redisError, ⟨st.residents, updateKey name env.now st.lastUsed⟩,
        [.redisExpire name]⟩
  | none =>
    if env.redisOk then
      let o := loadModel env name st
      ⟨o.res, o.state, .redisGet name :: o.trace⟩
    else ⟨.error .redisError, st, [.redisGet name]⟩

/-- The `finally` block of `get_model_context` (the release step of scoped
acquisition): refresh the last-used time if the model is still resident. -/
def releaseModel (env : Env) (name : String) (st : CacheState) : CacheState :=
  match lookupKey name st.residents with
  | some _ => ⟨st.residents, updateKey name env.now st.lastUsed⟩
  | none => st

/-- `ModelManager.get_model_context`: acquire, then (on success) run the
body and the `finally` timestamp refresh; a raising `get_model` propagates. -/
def getModelContext (env : Env) (name : String) (st : CacheState) : Outcome Nat :=
  let o := getModel env name st
  match o.res with
  | .error e => ⟨.error e, o.state, o.trace⟩
  | .ok h => ⟨.ok h, releaseModel env name o.state, o.trace⟩

/-- The unload loop of `ModelManager.close`, over a snapshot of the resident
keys (`list(self.models_in_memory.keys())`); a raising unload aborts the loop. -/
def closeKeys (env : Env) : List String → CacheState → Outcome Unit
  | [], st => ⟨.ok (), st, []⟩
  | k :: ks, st =>
    let o := unloadModel env k st
    match o.res with
    | .error e => ⟨.error e, o.state, o.trace⟩
    | .ok _ =>
      let o2 := closeKeys env ks o.state
      ⟨o2.res, o2.state, o.trace ++ o2.trace⟩

/-- `ModelManager.close`: unload every resident model. -/
def closeCache (env : Env) (st : CacheState) : Outcome Unit :=
  closeKeys env (keysOf st.residents) st

/-- One call of the public cache interface, for sequences of operations. -/
inductive CacheCall where
  | acquire (name : String)
  | release (name : String)
  | evict (name : String)

/-- The dictionary state after one public call (ignoring its result). -/
def applyCall (env : Env) (c : CacheCall) (st : CacheState) : CacheState :=
  match c with
  | .acquire n => (getModel env n st).state
  | .release n => releaseModel env n st
  | .evict n => (unloadModel env n st).state

/-- Run a sequence of public calls, each with its own external oracles. -/
def runCalls : List (Env × CacheCall) → CacheState → CacheState
  | [], st => st
  | (e, c) :: rest, st => runCalls rest (applyCall e c st)

/-- Well-formedness of a dictionary pair: no duplicate keys (true of every
Python dict) and the two dictionaries hold exactly the same keys (the code
always inserts into and deletes from both together). -/
def WF (st : CacheState) : Prop :=
  (keysOf st.residents).Nodup ∧ (keysOf st.lastUsed).Nodup ∧
    ∀ k : String, k ∈ keysOf st.residents ↔ k ∈ keysOf st.lastUsed

/-- `ModelManager.get_supported_elements`: the element-set table, with
`set()` for unknown names (`dict.get` default). -/
def get_supported_elements (model_name : String) : Finset ℕ :=
  if model_name = "ANI1ccx" then {1, 6, 7, 8}
  else if model_name = "ANI1x" then {1, 6, 7, 8}
  else if model_name = "ANI2x" then {1, 6, 7, 8, 9, 16, 17}
  else ∅

/-- The fixed preference order of `select_best_model`. -/
def model_preference : List String := ["ANI2x", "ANI1ccx", "ANI1x"]

/-- The `for` loop of `select_best_model`: first name in the list whose
supported set contains all required elements. -/
def selectFrom (elements : Finset ℕ) : List String → Option String
  | [] => none
  | m :: rest =>
    if elements ⊆ get_supported_elements m then some m else selectFrom elements rest

/-- `ModelManager.select_best_model`. -/
def select_best_model (elements : Finset ℕ) : Option String :=
  selectFrom elements model_preference

/-- A concrete environment with the default capacity (`model_max_loaded = 2`),
pressure threshold 7 with an idle gauge reading 0 (gauge values in tenths of
the default 0.7 threshold scale), a reachable store, and a loader that always
succeeds, producing handle 7. -/
def envUp : Env := ⟨2, 7, fun _ => 0, 100, true, fun _ => true, fun _ => 7⟩

/-- `envUp` with the FreshnessStore unreachable. -/
def envDown : Env := ⟨2, 7, fun _ => 0, 100, false, fun _ => true, fun _ => 7⟩

/-- `envUp` with the gauge reading 9, above the threshold 7. -/
def envHot : Env := ⟨2, 7, fun _ => 9, 100, true, fun _ => true, fun _ => 7⟩

/-- `envUp` with a loader that raises for `ANI1ccx`. -/
def envLoaderFails : Env :=
  ⟨2, 7, fun _ => 0, 100, true, fun n => n != "ANI1ccx", fun _ => 7⟩

/-- One resident model. -/
def stOne : CacheState := ⟨[("ANI2x", 7)], [("ANI2x", 3)]⟩

/-- Two resident models, at the capacity of `envUp`; `ANI2x` is least recent. -/
def stTwo : CacheState := ⟨[("ANI2x", 7), ("ANI1x", 8)], [("ANI2x", 3), ("ANI1x", 4)]⟩

/-- Three resident entries with last-used stamps 10, 5, 20. -/
def stThree : CacheState :=
  ⟨[("ANI1ccx", 1), ("ANI2x", 2), ("ANI1x", 3)],
   [("ANI1ccx", 10), ("ANI2x", 5), ("ANI1x", 20)]⟩

/-- A concrete three-call sequence for exercising the capacity bound. -/
def callsThree : List (Env × CacheCall) :=
  [(envUp, CacheCall.acquire "ANI2x"), (envUp, CacheCall.acquire "ANI1x"),
   (envUp, CacheCall.acquire "ANI1ccx")]

@[simp] theorem keysOf_nil {α : Type} : keysOf ([] : List (String × α)) = [] := rfl

@[simp] theorem keysOf_cons {α : Type} (p : String × α) (l : List (String × α)) :
    keysOf (p :: l) = p.1 :: keysOf l := rfl

@[simp] theorem length_keysOf {α : Type} (l : List (String × α)) :
    (keysOf l).length = l.length := by
  simp [keysOf]

theorem lookupKey_eq_none_iff {α : Type} (k : String) (l : List (String × α)) :
    lookupKey k l = none ↔ k ∉ keysOf l := by
  induction l with
  | nil => simp [lookupKey]
  | cons p rest ih =>
    obtain ⟨k', v⟩ := p
    by_cases h : k' = k
    · subst h
      simp [lookupKey]
    · simp [lookupKey, h, ih, Ne.symm h]

theorem isSome_lookupKey {α : Type} (k : String) (l : List (String × α)) :
    (lookupKey k l).isSome ↔ k ∈ keysOf l := by
  rw [Option.isSome_iff_ne_none, Ne, lookupKey_eq_none_iff, not_not]

theorem eraseKey_sublist {α : Type} (k : String) (l : List (String × α)) :
    List.Sublist (eraseKey k l) l := by
  induction l with
  | nil => simp [eraseKey]
  | cons p rest ih =>
    obtain ⟨k', v⟩ := p
    simp only [eraseKey]
    by_cases h : k' = k
    · rw [if_pos h]
      exact List.Sublist.cons _ (List.Sublist.refl _)
    · rw [if_neg h]
      exact List.Sublist.cons₂ _ ih

theorem length_eraseKey_of_mem {α : Type} {k : String} {l : List (String × α)}
    (h : k ∈ keysOf l) : (eraseKey k l).length + 1 = l.length := by
  induction l with
  | nil => simp at h
  | cons p rest ih =>
    obtain ⟨k', v⟩ := p
    by_cases hk : k' = k
    · simp [eraseKey, hk]
    · have hmem : k ∈ keysOf rest := by
        rcases List.mem_cons.mp h with h1 | h1
        · exact absurd h1.symm hk
        · exact h1
      simp [eraseKey, hk, ih hmem]

theorem length_eraseKey_le {α : Type} (k : String) (l : List (String × α)) :
    (eraseKey k l).length ≤ l.length :=
  (eraseKey_sublist k l).length_le

theorem eraseKey_of_not_mem {α : Type} {k : String} {l : List (String × α)}
    (h : k ∉ keysOf l) : eraseKey k l = l := by
  induction l with
  | nil => rfl
  | cons p rest ih =>
    obtain ⟨k', v⟩ := p
    simp only [keysOf_cons, List.mem_cons] at h
    push_neg at h
    simp [eraseKey, Ne.symm h.1, ih h.2]

theorem mem_keysOf_eraseKey {α : Type} {a k : String} {l : List (String × α)}
    (hnd : (keysOf l).Nodup) : a ∈ keysOf (eraseKey k l) ↔ a ∈ keysOf l ∧ a ≠ k := by
  induction l with
  | nil => simp [eraseKey]
  | cons p rest ih =>
    obtain ⟨k', v⟩ := p
    simp only [keysOf_cons, List.nodup_cons] at hnd
    by_cases hk : k' = k
    · subst hk
      simp only [eraseKey, if_pos rfl, keysOf_cons, List.mem_cons]
      constructor
      · intro ha
        have hne : a ≠ k' := fun he => hnd.1 (he ▸ ha)
        exact ⟨Or.inr ha, hne⟩
      · rintro ⟨ha | ha, hne⟩
        · exact absurd ha hne
        · exact ha
    · simp only [eraseKey, if_neg hk, keysOf_cons, List.mem_cons, ih hnd.2]
      constructor
      · rintro (rfl | ⟨ha, hne⟩)
        · exact ⟨Or.inl rfl, hk⟩
        · exact ⟨Or.inr ha, hne⟩
      · rintro ⟨rfl | ha, hne⟩
        · exact Or.inl rfl
        · exact Or.inr ⟨ha, hne⟩

theorem nodup_keysOf_eraseKey {α : Type} {k : String} {l : List (String × α)}
    (h : (keysOf l).Nodup) : (keysOf (eraseKey k l)).Nodup :=
  List.Nodup.sublist (List.Sublist.map Prod.fst (eraseKey_sublist k l)) h

theorem keysOf_updateKey {α : Type} (k : String) (v : α) (l : List (String × α)) :
    keysOf (updateKey k v l) = if k ∈ keysOf l then keysOf l else keysOf l ++ [k] := by
  induction l with
  | nil => simp [updateKey]
  | cons p rest ih =>
    obtain ⟨k', v'⟩ := p
    by_cases hk : k' = k
    · subst hk
      simp [updateKey]
    · by_cases hm : k ∈ keysOf rest
      · simp [updateKey, hk, ih, hm, Ne.symm hk]
      · simp [updateKey, hk, ih, hm, Ne.symm hk]

theorem length_updateKey {α : Type} (k : String) (v : α) (l : List (String × α)) :
    (updateKey k v l).length = if k ∈ keysOf l then l.length else l.length + 1 := by
  have h := congrArg List.length (keysOf_updateKey k v l)
  simp only [length_keysOf] at h
  rw [h]
  by_cases hm : k ∈ keysOf l <;> simp [hm]

theorem lookupKey_updateKey_self {α : Type} (k : String) (v : α) (l : List (String × α)) :
    lookupKey k (updateKey k v l) = some v := by
  induction l with
  | nil => simp [updateKey, lookupKey]
  | cons p rest ih =>
    obtain ⟨k', v'⟩ := p
    by_cases hk : k' = k
    · simp [updateKey, hk, lookupKey]
    · simp [updateKey, hk, lookupKey, ih]

theorem nodup_keysOf_updateKey {α : Type} {k : String} (v : α) {l : List (String × α)}
    (h : (keysOf l).Nodup) : (keysOf (updateKey k v l)).Nodup := by
  rw [keysOf_updateKey]
  by_cases hm : k ∈ keysOf l
  · simpa [hm] using h
  · simp [hm, List.nodup_append, h]

theorem argminGo_spec (k : String) (v : ℚ) (l : List (String × ℚ)) :
    ∃ w : ℚ, ((argminGo k v l = k ∧ w = v) ∨ (argminGo k v l, w) ∈ l) ∧ w ≤ v ∧
      ∀ p ∈ l, w ≤ p.2 := by
  induction l generalizing k v with
  | nil => exact ⟨v, Or.inl ⟨rfl, rfl⟩, le_refl v, by simp⟩
  | cons p rest ih =>
    obtain ⟨k', v'⟩ := p
    by_cases h : v' < v
    · obtain ⟨w, hw1, hw2, hw3⟩ := ih k' v'
      refine ⟨w, ?_, le_trans hw2 (le_of_lt h), ?_⟩
      · simp only [argminGo, if_pos h]
        rcases hw1 with ⟨he, hv⟩ | hmem
        · exact Or.inr (by rw [he, hv]; exact List.mem_cons_self _ _)
        · exact Or.inr (List.mem_cons_of_mem _ hmem)
      · intro p hp
        rcases List.mem_cons.mp hp with rfl | hp'
        · exact hw2
        · exact hw3 p hp'
    · obtain ⟨w, hw1, hw2, hw3⟩ := ih k v
      refine ⟨w, ?_, hw2, ?_⟩
      · simp only [argminGo, if_neg h]
        rcases hw1 with ⟨he, hv⟩ | hmem
        · exact Or.inl ⟨he, hv⟩
        · exact Or.inr (List.mem_cons_of_mem _ hmem)
      · intro p hp
        rcases List.mem_cons.mp hp with rfl | hp'
        · exact le_trans hw2 (not_lt.mp h)
        · exact hw3 p hp'

theorem argminKey_spec (l : List (String × ℚ)) (h : l ≠ []) :
    ∃ k w, argminKey l = some k ∧ (k, w) ∈ l ∧ ∀ p ∈ l, w ≤ p.2 := by
  match l, h with
  | (k0, v0) :: rest, _ =>
    obtain ⟨w, hw1, hw2, hw3⟩ := argminGo_spec k0 v0 rest
    refine ⟨argminGo k0 v0 rest, w, rfl, ?_, ?_⟩
    · rcases hw1 with ⟨he, hv⟩ | hmem
      · rw [he, hv]
        exact List.mem_cons_self _ _
      · exact List.mem_cons_of_mem _ hmem
    · intro p hp
      rcases List.mem_cons.mp hp with rfl | hp'
      · exact hw2
      · exact hw3 p hp'

theorem argminKey_eq_none_iff (l : List (String × ℚ)) : argminKey l = none ↔ l = [] := by
  cases l with
  | nil => simp [argminKey]
  | cons p rest =>
    obtain ⟨k, v⟩ := p
    simp [argminKey]

theorem WF_erase {k : String} {r : List (String × Nat)} {u : List (String × ℚ)}
    (hwf : WF ⟨r, u⟩) : WF ⟨eraseKey k r, eraseKey k u⟩ := by
  obtain ⟨h1, h2, h3⟩ := hwf
  refine ⟨nodup_keysOf_eraseKey h1, nodup_keysOf_eraseKey h2, fun a => ?_⟩
  rw [mem_keysOf_eraseKey h1, mem_keysOf_eraseKey h2, h3 a]

theorem WF_update {k : String} {hv : Nat} {tv : ℚ} {r : List (String × Nat)}
    {u : List (String × ℚ)} (hwf : WF ⟨r, u⟩) :
    WF ⟨updateKey k hv r, updateKey k tv u⟩ := by
  obtain ⟨h1, h2, h3⟩ := hwf
  refine ⟨nodup_keysOf_updateKey _ h1, nodup_keysOf_updateKey _ h2, fun a => ?_⟩
  rw [keysOf_updateKey, keysOf_updateKey]
  by_cases hm : k ∈ keysOf r
  · rw [if_pos hm, if_pos ((h3 k).mp hm)]
    exact h3 a
  · rw [if_neg hm, if_neg (fun hu => hm ((h3 k).mpr hu))]
    simp [List.mem_append, h3 a]

theorem unloadModel_state_eq {env : Env} {name : String} {st : CacheState} (hwf : WF st) :
    (unloadModel env name st).state =
      ⟨eraseKey name st.residents, eraseKey name st.lastUsed⟩ := by
  obtain ⟨h1, h2, h3⟩ := hwf
  rcases hr : lookupKey name st.residents with _ | v
  · have hnr : name ∉ keysOf st.residents := (lookupKey_eq_none_iff _ _).mp hr
    have hnu : name ∉ keysOf st.lastUsed := fun hu => hnr ((h3 name).mpr hu)
    simp [unloadModel, hr, eraseKey_of_not_mem hnr, eraseKey_of_not_mem hnu]
  · have hmr : name ∈ keysOf st.residents := by
      rw [← isSome_lookupKey, hr]
      rfl
    have hmu : name ∈ keysOf st.lastUsed := (h3 name).mp hmr
    have hsome : (lookupKey name st.lastUsed).isSome := (isSome_lookupKey _ _).mpr hmu
    rcases hu : lookupKey name st.lastUsed with _ | w
    · rw [hu] at hsome
      simp at hsome
    · rcases hred : env.redisOk with _ | _ <;> simp [unloadModel, hr, hu, hred]

theorem unloadModel_res_ok {env : Env} {name : String} {st : CacheState} (hwf : WF st)
    (hr : env.redisOk = true) : (unloadModel env name st).res = .ok () := by
  obtain ⟨h1, h2, h3⟩ := hwf
  rcases hlr : lookupKey name st.residents with _ | v
  · simp [unloadModel, hlr]
  · have hmr : name ∈ keysOf st.residents := by
      rw [← isSome_lookupKey, hlr]
      rfl
    have hmu : name ∈ keysOf st.lastUsed := (h3 name).mp hmr
    have hsome : (lookupKey name st.lastUsed).isSome := (isSome_lookupKey _ _).mpr hmu
    rcases hu : lookupKey name st.lastUsed with _ | w
    · rw [hu] at hsome
      simp at hsome
    · simp [unloadModel, hlr, hu, hr]

theorem unloadModel_WF {env : Env} {name : String} {st : CacheState} (hwf : WF st) :
    WF (unloadModel env name st).state := by
  rw [unloadModel_state_eq hwf]
  exact WF_erase hwf

theorem unloadModel_residents_sublist (env : Env) (name : String) (st : CacheState) :
    List.Sublist (unloadModel env name st).state.residents st.residents := by
  rcases hlr : lookupKey name st.residents with _ | v
  · simp only [unloadModel, hlr]
    exact List.Sublist.refl _
  · rcases hu : lookupKey name st.lastUsed with _ | w
    · simp only [unloadModel, hlr, hu]
      exact eraseKey_sublist _ _
    · rcases hred : env.redisOk with _ | _ <;>
        · simp only [unloadModel, hlr, hu, hred]
          exact eraseKey_sublist _ _

theorem unloadModel_length_le (env : Env) (name : String) (st : CacheState) :
    (unloadModel env name st).state.residents.length ≤ st.residents.length :=
  (unloadModel_residents_sublist env name st).length_le

theorem evictOldest_spec {env : Env} {st : CacheState} (hwf : WF st)
    (hne : st.residents ≠ []) :
    ∃ k w, argminKey st.lastUsed = some k ∧ (k, w) ∈ st.lastUsed ∧
      (∀ p ∈ st.lastUsed, w ≤ p.2) ∧ k ∈ keysOf st.residents ∧
      evictOldest env st =
        ⟨(unloadModel env k st).res,
          ⟨eraseKey k st.residents, eraseKey k st.lastUsed⟩,
          .evict k :: (unloadModel env k st).trace⟩ := by
  have hul : st.lastUsed ≠ [] := by
    intro hnil
    rcases List.exists_mem_of_ne_nil st.residents hne with ⟨p, hp⟩
    have hkr : p.1 ∈ keysOf st.residents := List.mem_map_of_mem Prod.fst hp
    have hku : p.1 ∈ keysOf st.lastUsed := (hwf.2.2 p.1).mp hkr
    rw [hnil] at hku
    simp [keysOf] at hku
  obtain ⟨k, w, hargm, hmem, hmin⟩ := argminKey_spec st.lastUsed hul
  have hku : k ∈ keysOf st.lastUsed := List.mem_map_of_mem Prod.fst hmem
  have hkr : k ∈ keysOf st.residents := (hwf.2.2 k).mpr hku
  refine ⟨k, w, hargm, hmem, hmin, hkr, ?_⟩
  simp only [evictOldest, if_neg hne, hargm]
  rw [unloadModel_state_eq hwf]

theorem evictOldest_WF {env : Env} {st : CacheState} (hwf : WF st) :
    WF (evictOldest env st).state := by
  by_cases hne : st.residents = []
  · simp only [evictOldest, if_pos hne]
    exact hwf
  · obtain ⟨k, w, hargm, hmem, hmin, hkr, heq⟩ := @evictOldest_spec env _ hwf hne
    rw [heq]
    exact WF_erase hwf

theorem evictOldest_length {env : Env} {st : CacheState} (hwf : WF st)
    (hne : st.residents ≠ []) :
    (evictOldest env st).state.residents.length + 1 = st.residents.length := by
  obtain ⟨k, w, hargm, hmem, hmin, hkr, heq⟩ := @evictOldest_spec env _ hwf hne
  rw [heq]
  exact length_eraseKey_of_mem hkr

theorem evictOldest_res_ok {env : Env} {st : CacheState} (hwf : WF st)
    (hr : env.redisOk = true) : (evictOldest env st).res = .ok () := by
  by_cases hne : st.residents = []
  · simp [evictOldest, hne]
  · obtain ⟨k, w, hargm, hmem, hmin, hkr, heq⟩ := @evictOldest_spec env _ hwf hne
    rw [heq]
    exact unloadModel_res_ok hwf hr

theorem evictOldest_residents_sublist (env : Env) (st : CacheState) :
    List.Sublist (evictOldest env st).state.residents st.residents := by
  by_cases hne : st.residents = []
  · simp only [evictOldest, if_pos hne]
    exact List.Sublist.refl _
  · rcases hargm : argminKey st.lastUsed with _ | k
    · simp only [evictOldest, if_neg hne, hargm]
      exact List.Sublist.refl _
    · simp only [evictOldest, if_neg hne, hargm]
      exact unloadModel_residents_sublist env k st

theorem pressureLoop_residents_sublist (env : Env) :
    ∀ (fuel i : Nat) (st : CacheState),
      List.Sublist (pressureLoop env fuel i st).state.residents st.residents := by
  intro fuel
  induction fuel with
  | zero => intro i st; exact List.Sublist.refl _
  | succ fuel ih =>
    intro i st
    by_cases hc : env.threshold < env.gauge i ∧ st.residents ≠ []
    · rcases hres : (evictOldest env st).res with e | u
      · simp only [pressureLoop, if_pos hc, hres]
        exact evictOldest_residents_sublist env st
      · simp only [pressureLoop, if_pos hc, hres]
        exact List.Sublist.trans (ih (i + 1) (evictOldest env st).state)
          (evictOldest_residents_sublist env st)
    · simp only [pressureLoop, if_neg hc]
      exact List.Sublist.refl _

theorem pressureLoop_WF (env : Env) :
    ∀ (fuel i : Nat) (st : CacheState), WF st → WF (pressureLoop env fuel i st).state := by
  intro fuel
  induction fuel with
  | zero => intro i st hwf; exact hwf
  | succ fuel ih =>
    intro i st hwf
    by_cases hc : env.threshold < env.gauge i ∧ st.residents ≠ []
    · rcases hres : (evictOldest env st).res with e | u
      · simp only [pressureLoop, if_pos hc, hres]
        exact evictOldest_WF hwf
      · simp only [pressureLoop, if_pos hc, hres]
        exact ih (i + 1) (evictOldest env st).state (evictOldest_WF hwf)
    · simp only [pressureLoop, if_neg hc]
      exact hwf

theorem pressureLoop_ok (env : Env) (hr : env.redisOk = true) :
    ∀ (fuel i : Nat) (st : CacheState), WF st → st.residents.length < fuel →
      (pressureLoop env fuel i st).res = .ok () := by
  intro fuel
  induction fuel with
  | zero => intro i st hwf hlt; exact absurd hlt (Nat.not_lt_zero _)
  | succ fuel ih =>
    intro i st hwf hlt
    by_cases hc : env.threshold < env.gauge i ∧ st.residents ≠ []
    · have hok := @evictOldest_res_ok env _ hwf hr
      have hlen := @evictOldest_length env _ hwf hc.2
      simp only [pressureLoop, if_pos hc, hok]
      exact ih (i + 1) (evictOldest env st).state (evictOldest_WF hwf) (by omega)
    · simp only [pressureLoop, if_neg hc]

theorem capacityLoop_residents_sublist (env : Env) :
    ∀ (fuel : Nat) (st : CacheState),
      List.Sublist (capacityLoop env fuel st).state.residents st.residents := by
  intro fuel
  induction fuel with
  | zero => intro st; exact List.Sublist.refl _
  | succ fuel ih =>
    intro st
    by_cases hc : env.maxLoaded ≤ st.residents.length
    · rcases hres : (evictOldest env st).res with e | u
      · simp only [capacityLoop, if_pos hc, hres]
        exact evictOldest_residents_sublist env st
      · simp only [capacityLoop, if_pos hc, hres]
        exact List.Sublist.trans (ih (evictOldest env st).state)
          (evictOldest_residents_sublist env st)
    · simp only [capacityLoop, if_neg hc]
      exact List.Sublist.refl _

theorem capacityLoop_WF (env : Env) :
    ∀ (fuel : Nat) (st : CacheState), WF st → WF (capacityLoop env fuel st).state := by
  intro fuel
  induction fuel with
  | zero => intro st hwf; exact hwf
  | succ fuel ih =>
    intro st hwf
    by_cases hc : env.maxLoaded ≤ st.residents.length
    · rcases hres : (evictOldest env st).res with e | u
      · simp only [capacityLoop, if_pos hc, hres]
        exact evictOldest_WF hwf
      · simp only [capacityLoop, if_pos hc, hres]
        exact ih (evictOldest env st).state (evictOldest_WF hwf)
    · simp only [capacityLoop, if_neg hc]
      exact hwf

theorem capacityLoop_ok (env : Env) (hr : env.redisOk = true) (hmax : 0 < env.maxLoaded) :
    ∀ (fuel : Nat) (st : CacheState), WF st → st.residents.length < fuel →
      (capacityLoop env fuel st).res = .ok () := by
  intro fuel
  induction fuel with
  | zero => intro st hwf hlt; exact absurd hlt (Nat.not_lt_zero _)
  | succ fuel ih =>
    intro st hwf hlt
    by_cases hc : env.maxLoaded ≤ st.residents.length
    · have hne : st.residents ≠ [] := by
        intro hnil
        rw [hnil] at hc
        simp at hc
        omega
      have hok := @evictOldest_res_ok env _ hwf hr
      have hlen := @evictOldest_length env _ hwf hne
      simp only [capacityLoop, if_pos hc, hok]
      exact ih (evictOldest env st).state (evictOldest_WF hwf) (by omega)
    · simp only [capacityLoop, if_neg hc]

theorem capacityLoop_lt_of_ok (env : Env) :
    ∀ (fuel : Nat) (st : CacheState), (capacityLoop env fuel st).res = .ok () →
      (capacityLoop env fuel st).state.residents.length < env.maxLoaded := by
  intro fuel
  induction fuel with
  | zero =>
    intro st h
    simp only [capacityLoop] at h
    cases h
  | succ fuel ih =>
    intro st h
    by_cases hc : env.maxLoaded ≤ st.residents.length
    · rcases hres : (evictOldest env st).res with e | u
      · simp only [capacityLoop, if_pos hc, hres] at h
        cases h
      · simp only [capacityLoop, if_pos hc, hres] at h ⊢
        exact ih (evictOldest env st).state h
    · simp only [capacityLoop, if_neg hc]
      omega

theorem loadPressure_residents_sublist (env : Env) (st : CacheState) :
    List.Sublist (loadPressure env st).state.residents st.residents :=
  pressureLoop_residents_sublist env _ 0 st

theorem loadPressure_WF {env : Env} {st : CacheState} (hwf : WF st) :
    WF (loadPressure env st).state :=
  pressureLoop_WF env _ 0 st hwf

theorem loadPressure_ok {env : Env} {st : CacheState} (hwf : WF st)
    (hr : env.redisOk = true) : (loadPressure env st).res = .ok () :=
  pressureLoop_ok env hr _ 0 st hwf (Nat.lt_succ_self _)

theorem loadCapacity_residents_sublist (env : Env) (st : CacheState) :
    List.Sublist (loadCapacity env st).state.residents st.residents :=
  capacityLoop_residents_sublist env _ st

theorem loadCapacity_WF {env : Env} {st : CacheState} (hwf : WF st) :
    WF (loadCapacity env st).state :=
  capacityLoop_WF env _ st hwf

theorem loadCapacity_ok {env : Env} {st : CacheState} (hwf : WF st)
    (hr : env.redisOk = true) (hmax : 0 < env.maxLoaded) :
    (loadCapacity env st).res = .ok () :=
  capacityLoop_ok env hr hmax _ st hwf (Nat.lt_succ_self _)

theorem loadCapacity_lt_of_ok {env : Env} {st : CacheState}
    (h : (loadCapacity env st).res = .ok ()) :
    (loadCapacity env st).state.residents.length < env.maxLoaded :=
  capacityLoop_lt_of_ok env _ st h

theorem loadModel_length_le {env : Env} {name : String} {st : CacheState}
    (h0 : st.residents.length ≤ env.maxLoaded) :
    (loadModel env name st).state.residents.length ≤ env.maxLoaded := by
  rcases h1 : (loadPressure env st).res with e | u
  · simp only [loadModel, h1]
    exact le_trans (loadPressure_residents_sublist env st).length_le h0
  · rcases h2 : (loadCapacity env (loadPressure env st).state).res with e | u2
    · simp only [loadModel, h1, h2]
      exact le_trans (loadCapacity_residents_sublist _ _).length_le
        (le_trans (loadPressure_residents_sublist env st).length_le h0)
    · have hlt : (loadCapacity env (loadPressure env st).state).state.residents.length <
          env.maxLoaded := loadCapacity_lt_of_ok h2
      by_cases hreg : registered name = true
      · by_cases hload : env.loaderOk name = true
        · by_cases hred : env.redisOk = true
          · simp only [loadModel, h1, h2, hreg, hload, hred, if_true]
            rw [length_updateKey]
            by_cases hm : name ∈
                keysOf (loadCapacity env (loadPressure env st).state).state.residents
            · simp only [if_pos hm]
              omega
            · simp only [if_neg hm]
              omega
          · rw [Bool.not_eq_true] at hred
            simp only [loadModel, h1, h2, hreg, hload, hred, if_true, Bool.false_eq_true,
              if_false]
            rw [length_updateKey]
            by_cases hm : name ∈
                keysOf (loadCapacity env (loadPressure env st).state).state.residents
            · simp only [if_pos hm]
              omega
            · simp only [if_neg hm]
              omega
        · rw [Bool.not_eq_true] at hload
          simp only [loadModel, h1, h2, hreg, hload, if_true, Bool.false_eq_true, if_false]
          omega
      · rw [Bool.not_eq_true] at hreg
        simp only [loadModel, h1, h2, hreg, Bool.false_eq_true, if_false]
        omega

theorem getModel_length_le {env : Env} {name : String} {st : CacheState}
    (h0 : st.residents.length ≤ env.maxLoaded) :
    (getModel env name st).state.residents.length ≤ env.maxLoaded := by
  rcases hlr : lookupKey name st.residents with _ | h
  · by_cases hred : env.redisOk = true
    · simp only [getModel, hlr, hred, if_true]
      exact loadModel_length_le h0
    · rw [Bool.not_eq_true] at hred
      simp only [getModel, hlr, hred, Bool.false_eq_true, if_false]
      exact h0
  · by_cases hred : env.redisOk = true
    · simp only [getModel, hlr, hred, if_true]
      exact h0
    · rw [Bool.not_eq_true] at hred
      simp only [getModel, hlr, hred, Bool.false_eq_true, if_false]
      exact h0

theorem releaseModel_residents (env : Env) (name : String) (st : CacheState) :
    (releaseModel env name st).residents = st.residents := by
  rcases hlr : lookupKey name st.residents with _ | h <;> simp [releaseModel, hlr]

theorem applyCall_length_le {env : Env} {c : CacheCall} {st : CacheState}
    (h0 : st.residents.length ≤ env.maxLoaded) :
    (applyCall env c st).residents.length ≤ env.maxLoaded := by
  cases c with
  | acquire n => exact getModel_length_le h0
  | release n =>
    simp only [applyCall, releaseModel_residents]
    exact h0
  | evict n => exact le_trans (unloadModel_length_le env n st) h0

theorem runCalls_length_le (cap : Nat) :
    ∀ (calls : List (Env × CacheCall)) (st : CacheState),
      (∀ p ∈ calls, p.1.maxLoaded = cap) → st.residents.length ≤ cap →
      (runCalls calls st).residents.length ≤ cap := by
  intro calls
  induction calls with
  | nil => intro st _ hlen; exact hlen
  | cons p rest ih =>
    intro st h hlen
    obtain ⟨e, c⟩ := p
    have he : e.maxLoaded = cap := h (e, c) (List.mem_cons_self _ _)
    have hstep : (applyCall e c st).residents.length ≤ cap := by
      rw [← he] at hlen ⊢
      exact applyCall_length_le hlen
    exact ih _ (fun q hq => h q (List.mem_cons_of_mem _ hq)) hstep

theorem loadModel_WF {env : Env} {name : String} {st : CacheState} (hwf : WF st) :
    WF (loadModel env name st).state := by
  rcases h1 : (loadPressure env st).res with e | u
  · simp only [loadModel, h1]
    exact loadPressure_WF hwf
  · have hwf1 := @loadPressure_WF env _ hwf
    rcases h2 : (loadCapacity env (loadPressure env st).state).res with e | u2
    · simp only [loadModel, h1, h2]
      exact loadCapacity_WF hwf1
    · have hwf2 := @loadCapacity_WF env _ hwf1
      by_cases hreg : registered name = true
      · by_cases hload : env.loaderOk name = true
        · by_cases hred : env.redisOk = true
          · simp only [loadModel, h1, h2, hreg, hload, hred, if_true]
            exact WF_update hwf2
          · rw [Bool.not_eq_true] at hred
            simp only [loadModel, h1, h2, hreg, hload, hred, if_true, Bool.false_eq_true,
              if_false]
            exact WF_update hwf2
        · rw [Bool.not_eq_true] at hload
          simp only [loadModel, h1, h2, hreg, hload, if_true, Bool.false_eq_true, if_false]
          exact hwf2
      · rw [Bool.not_eq_true] at hreg
        simp only [loadModel, h1, h2, hreg, Bool.false_eq_true, if_false]
        exact hwf2

theorem getModel_WF {env : Env} {name : String} {st : CacheState} (hwf : WF st) :
    WF (getModel env name st).state := by
  rcases hlr : lookupKey name st.residents with _ | h
  · by_cases hred : env.redisOk = true
    · simp only [getModel, hlr, hred, if_true]
      exact loadModel_WF hwf
    · rw [Bool.not_eq_true] at hred
      simp only [getModel, hlr, hred, Bool.false_eq_true, if_false]
      exact hwf
  · have hmr : name ∈ keysOf st.residents := by
      rw [← isSome_lookupKey, hlr]
      rfl
    have hmu : name ∈ keysOf st.lastUsed := (hwf.2.2 name).mp hmr
    have hkeys : keysOf (updateKey name env.now st.lastUsed) = keysOf st.lastUsed := by
      rw [keysOf_updateKey, if_pos hmu]
    have hgoal : WF ⟨st.residents, updateKey name env.now st.lastUsed⟩ := by
      refine ⟨hwf.1, ?_, fun a => ?_⟩
      · rw [hkeys]
        exact hwf.2.1
      · rw [hkeys]
        exact hwf.2.2 a
    by_cases hred : env.redisOk = true
    · simp only [getModel, hlr, hred, if_true]
      exact hgoal
    · rw [Bool.not_eq_true] at hred
      simp only [getModel, hlr, hred, Bool.false_eq_true, if_false]
      exact hgoal

theorem releaseModel_WF {env : Env} {name : String} {st : CacheState} (hwf : WF st) :
    WF (releaseModel env name st) := by
  rcases hlr : lookupKey name st.residents with _ | h
  · simp only [releaseModel, hlr]
    exact hwf
  · have hmr : name ∈ keysOf st.residents := by
      rw [← isSome_lookupKey, hlr]
      rfl
    have hmu : name ∈ keysOf st.lastUsed := (hwf.2.2 name).mp hmr
    have hkeys : keysOf (updateKey name env.now st.lastUsed) = keysOf st.lastUsed := by
      rw [keysOf_updateKey, if_pos hmu]
    simp only [releaseModel, hlr]
    refine ⟨hwf.1, ?_, fun a => ?_⟩
    · rw [hkeys]
      exact hwf.2.1
    · rw [hkeys]
      exact hwf.2.2 a

theorem getModelContext_WF {env : Env} {name : String} {st : CacheState} (hwf : WF st) :
    WF (getModelContext env name st).state := by
  rcases hres : (getModel env name st).res with e | h
  · simp only [getModelContext, hres]
    exact getModel_WF hwf
  · simp only [getModelContext, hres]
    exact releaseModel_WF (getModel_WF hwf)

theorem closeKeys_WF (env : Env) :
    ∀ (ks : List String) (st : CacheState), WF st → WF (closeKeys env ks st).state := by
  intro ks
  induction ks with
  | nil => intro st hwf; exact hwf
  | cons k rest ih =>
    intro st hwf
    rcases hres : (unloadModel env k st).res with e | u
    · simp only [closeKeys, hres]
      exact unloadModel_WF hwf
    · simp only [closeKeys, hres]
      exact ih (unloadModel env k st).state (unloadModel_WF hwf)

theorem closeCache_WF {env : Env} {st : CacheState} (hwf : WF st) :
    WF (closeCache env st).state :=
  closeKeys_WF env (keysOf st.residents) st hwf

theorem loadModel_ok_lookup {env : Env} {name : String} {st : CacheState} {h : Nat}
    (hok : (loadModel env name st).res = .ok h) :
    lookupKey name (loadModel env name st).state.residents = some h := by
  rcases h1 : (loadPressure env st).res with e | u
  · simp only [loadModel, h1] at hok
    exact Except.noConfusion hok
  · rcases h2 : (loadCapacity env (loadPressure env st).state).res with e | u2
    · simp only [loadModel, h1, h2] at hok
      exact Except.noConfusion hok
    · by_cases hreg : registered name = true
      · by_cases hload : env.loaderOk name = true
        · by_cases hred : env.redisOk = true
          · simp only [loadModel, h1, h2, hreg, hload, hred, if_true] at hok ⊢
            have hh : env.mkHandle name = h := by
              injection hok
            rw [← hh]
            exact lookupKey_updateKey_self _ _ _
          · rw [Bool.not_eq_true] at hred
            simp only [loadModel, h1, h2, hreg, hload, hred, if_true, Bool.false_eq_true,
              if_false] at hok
            exact Except.noConfusion hok
        · rw [Bool.not_eq_true] at hload
          simp only [loadModel, h1, h2, hreg, hload, if_true, Bool.false_eq_true,
            if_false] at hok
          exact Except.noConfusion hok
      · rw [Bool.not_eq_true] at hreg
        simp only [loadModel, h1, h2, hreg, Bool.false_eq_true, if_false] at hok
        exact Except.noConfusion hok

theorem getModel_ok_lookup {env : Env} {name : String} {st : CacheState} {h : Nat}
    (hok : (getModel env name st).res = .ok h) :
    lookupKey name (getModel env name st).state.residents = some h := by
  rcases hlr : lookupKey name st.residents with _ | h0
  · by_cases hred : env.redisOk = true
    · simp only [getModel, hlr, hred, if_true] at hok ⊢
      exact loadModel_ok_lookup hok
    · rw [Bool.not_eq_true] at hred
      simp only [getModel, hlr, hred, Bool.false_eq_true, if_false] at hok
      exact Except.noConfusion hok
  · by_cases hred : env.redisOk = true
    · simp only [getModel, hlr, hred, if_true, Except.ok.injEq, Option.some.injEq] at hok ⊢
      exact hok
    · rw [Bool.not_eq_true] at hred
      simp only [getModel, hlr, hred, Bool.false_eq_true, if_false] at hok
      exact Except.noConfusion hok

theorem selectFrom_eq_none_iff (s : Finset ℕ) :
    ∀ l : List String, selectFrom s l = none ↔ ∀ m ∈ l, ¬ s ⊆ get_supported_elements m := by
  intro l
  induction l with
  | nil => simp [selectFrom]
  | cons m rest ih =>
    by_cases hm : s ⊆ get_supported_elements m
    · simp [selectFrom, hm]
    · simp [selectFrom, hm, ih]

theorem selectFrom_eq_some (s : Finset ℕ) :
    ∀ (l : List String) (m : String), selectFrom s l = some m →
      s ⊆ get_supported_elements m ∧
      ∃ pre post, l = pre ++ m :: post ∧ ∀ m' ∈ pre, ¬ s ⊆ get_supported_elements m' := by
  intro l
  induction l with
  | nil =>
    intro m hm
    simp [selectFrom] at hm
  | cons m0 rest ih =>
    intro m hm
    by_cases h0 : s ⊆ get_supported_elements m0
    · simp only [selectFrom, if_pos h0, Option.some.injEq] at hm
      subst hm
      exact ⟨h0, [], rest, rfl, by simp⟩
    · simp only [selectFrom, if_neg h0] at hm
      obtain ⟨hsub, pre, post, heq, hpre⟩ := ih m hm
      refine ⟨hsub, m0 :: pre, post, by rw [heq, List.cons_append], ?_⟩
      intro m' hm'
      rcases List.mem_cons.mp hm' with rfl | hm''
      · exact h0
      · exact hpre m' hm''

theorem stOne_WF : WF stOne :=
  ⟨by decide, by decide, fun k => Iff.rfl⟩

theorem stTwo_WF : WF stTwo :=
  ⟨by decide, by decide, fun k => Iff.rfl⟩

theorem stThree_WF : WF stThree :=
  ⟨by decide, by decide, fun k => Iff.rfl⟩

/-- Claim C1: for every sequence of acquire (`get_model`), release, and evict
(`_unload_model`) calls, the number of resident models (`len(models_in_memory)`)
is at most the configured capacity (`settings.model_max_loaded`) after each
call completes: every prefix of the call sequence leaves at most `cap`
residents, provided the initial state satisfies the bound. -/
theorem C1_capacity_bound (cap : Nat) (calls : List (Env × CacheCall)) (st0 : CacheState)
    (hcap : ∀ p ∈ calls, p.1.maxLoaded = cap) (h0 : st0.residents.length ≤ cap) :
    ∀ pre suf, calls = pre ++ suf → (runCalls pre st0).residents.length ≤ cap := by
  intro pre suf heq
  refine runCalls_length_le cap pre st0 (fun p hp => ?_) h0
  refine hcap p ?_
  rw [heq]
  exact List.mem_append_left suf hp

theorem C1_capacity_bound_witness :
    (runCalls callsThree ⟨[], []⟩).residents.length ≤ 2 :=
  C1_capacity_bound 2 callsThree ⟨[], []⟩ (by decide) (by decide) callsThree [] rfl

/-- Claim C4: whenever an eviction is performed on a non-empty resident set,
the entry removed is the one with the minimum `lastUsedAt` timestamp among
all resident entries (LRU): `_evict_oldest_model` removes the first key whose
timestamp is minimal, from both dictionaries. -/
theorem C4_lru_eviction (env : Env) (st : CacheState) (hwf : WF st)
    (hne : st.residents ≠ []) :
    ∃ k w, argminKey st.lastUsed = some k ∧ (k, w) ∈ st.lastUsed ∧
      (∀ p ∈ st.lastUsed, w ≤ p.2) ∧
      (evictOldest env st).state.residents = eraseKey k st.residents ∧
      (evictOldest env st).state.lastUsed = eraseKey k st.lastUsed ∧
      k ∉ keysOf (evictOldest env st).state.residents := by
  obtain ⟨k, w, hargm, hmem, hmin, hkr, heva⟩ := @evictOldest_spec env _ hwf hne
  refine ⟨k, w, hargm, hmem, hmin, ?_, ?_, ?_⟩
  · rw [heva]
  · rw [heva]
  · rw [heva]
    intro hk
    rw [mem_keysOf_eraseKey hwf.1] at hk
    exact hk.2 rfl

theorem C4_lru_eviction_witness :
    ∃ k w, argminKey stThree.lastUsed = some k ∧ (k, w) ∈ stThree.lastUsed ∧
      (∀ p ∈ stThree.lastUsed, w ≤ p.2) ∧
      (evictOldest envUp stThree).state.residents = eraseKey k stThree.residents ∧
      (evictOldest envUp stThree).state.lastUsed = eraseKey k stThree.lastUsed ∧
      k ∉ keysOf (evictOldest envUp stThree).state.residents :=
  C4_lru_eviction envUp stThree stThree_WF (by decide)

/-- Claim C6: after a successful acquire of `name`, a second acquire of the
same name (no eviction in between) does not invoke the loader again: it
returns the already-resident handle and only refreshes the last-used time and
the freshness TTL (its trace is exactly one `expire` call). -/
theorem C6_idempotent_residency (env1 env2 : Env) (name : String) (st : CacheState)
    (h : Nat) (hok : (getModel env1 name st).res = .ok h) (hr2 : env2.redisOk = true) :
    (getModel env2 name (getModel env1 name st).state).res = .ok h ∧
    Event.loaderCall name ∉ (getModel env2 name (getModel env1 name st).state).trace ∧
    (getModel env2 name (getModel env1 name st).state).trace = [Event.redisExpire name] ∧
    (getModel env2 name (getModel env1 name st).state).state.residents =
      (getModel env1 name st).state.residents ∧
    (getModel env2 name (getModel env1 name st).state).state.lastUsed =
      updateKey name env2.now (getModel env1 name st).state.lastUsed := by
  have hlook := getModel_ok_lookup hok
  revert hlook
  generalize (getModel env1 name st).state = st1
  intro hlook
  refine ⟨?_, ?_, ?_, ?_, ?_⟩ <;> simp [getModel, hlook, hr2]

theorem C6_idempotent_residency_witness :
    (getModel envUp "ANI2x" (getModel envUp "ANI2x" ⟨[], []⟩).state).res = .ok 7 ∧
    Event.loaderCall "ANI2x" ∉
      (getModel envUp "ANI2x" (getModel envUp "ANI2x" ⟨[], []⟩).state).trace ∧
    (getModel envUp "ANI2x" (getModel envUp "ANI2x" ⟨[], []⟩).state).trace =
      [Event.redisExpire "ANI2x"] ∧
    (getModel envUp "ANI2x" (getModel envUp "ANI2x" ⟨[], []⟩).state).state.residents =
      (getModel envUp "ANI2x" ⟨[], []⟩).state.residents ∧
    (getModel envUp "ANI2x" (getModel envUp "ANI2x" ⟨[], []⟩).state).state.lastUsed =
      updateKey "ANI2x" envUp.now (getModel envUp "ANI2x" ⟨[], []⟩).state.lastUsed :=
  C6_idempotent_residency envUp envUp "ANI2x" ⟨[], []⟩ 7 (by decide) rfl

/-- Claim C7: `select_best_model` iterates the fixed preference order and
returns the first model whose supported element set contains the required
set; it returns `none` (rather than raising) exactly when no model
qualifies. -/
theorem C7_select_first_qualifying (s : Finset ℕ) :
    (select_best_model s = none ↔
      ∀ m ∈ model_preference, ¬ s ⊆ get_supported_elements m) ∧
    ∀ m, select_best_model s = some m →
      s ⊆ get_supported_elements m ∧
      ∃ pre post, model_preference = pre ++ m :: post ∧
        ∀ m' ∈ pre, ¬ s ⊆ get_supported_elements m' :=
  ⟨selectFrom_eq_none_iff s model_preference,
    fun m hm => selectFrom_eq_some s model_preference m hm⟩

theorem C7_select_first_qualifying_witness : select_best_model {2} = none :=
  (C7_select_first_qualifying {2}).1.mpr (by decide)

/-- Claim C9: since `ANI2x` supports a superset of what `ANI1ccx` and `ANI1x`
support and comes first in the preference order, `select_best_model` never
returns `"ANI1ccx"` or `"ANI1x"`: the result is `some "ANI2x"` or `none`. -/
theorem C9_selector_only_ani2x (s : Finset ℕ) :
    select_best_model s = some "ANI2x" ∨ select_best_model s = none := by
  by_cases h2 : s ⊆ get_supported_elements "ANI2x"
  · left
    simp [select_best_model, model_preference, selectFrom, h2]
  · right
    have hsubc : get_supported_elements "ANI1ccx" ⊆ get_supported_elements "ANI2x" := by
      decide
    have hsubx : get_supported_elements "ANI1x" ⊆ get_supported_elements "ANI2x" := by
      decide
    have hc : ¬ s ⊆ get_supported_elements "ANI1ccx" := fun h => h2 (h.trans hsubc)
    have hx : ¬ s ⊆ get_supported_elements "ANI1x" := fun h => h2 (h.trans hsubx)
    simp [select_best_model, model_preference, selectFrom, h2, hc, hx]

/-- Claim C10: every cache operation (`get_model`, `_load_model`,
`_unload_model`, `get_model_context`, `close`) preserves the invariant that
the key set of `models_in_memory` equals the key set of `model_last_used`
(well-formedness `WF`, which also records key uniqueness — guaranteed for
every Python dict). -/
theorem C10_keys_in_sync (env : Env) (name : String) (st : CacheState) (hwf : WF st) :
    WF (getModel env name st).state ∧ WF (loadModel env name st).state ∧
    WF (unloadModel env name st).state ∧ WF (getModelContext env name st).state ∧
    WF (closeCache env st).state :=
  ⟨getModel_WF hwf, loadModel_WF hwf, unloadModel_WF hwf, getModelContext_WF hwf,
    closeCache_WF hwf⟩

theorem C10_keys_in_sync_witness :
    WF (getModel envUp "ANI1x" stOne).state ∧ WF (loadModel envUp "ANI1x" stOne).state ∧
    WF (unloadModel envUp "ANI1x" stOne).state ∧
    WF (getModelContext envUp "ANI1x" stOne).state ∧
    WF (closeCache envUp stOne).state :=
  C10_keys_in_sync envUp "ANI1x" stOne stOne_WF

/-- Counterexample to claim C2: with `ANI2x` resident, acquire returns the
handle when the store is reachable but raises the store error when it is not
(`get_model` calls `redis_client.expire` outside any try/except) — store
unreachability does change the raised/non-raised status of acquire. -/
theorem C2_counterexample :
    (getModel envUp "ANI2x" stOne).res = .ok 7 ∧
    (getModel envDown "ANI2x" stOne).res = .error .redisError :=
  ⟨by decide, by decide⟩

/-- Amended claim C2: store errors are NOT caught: when the FreshnessStore is
unreachable, acquire (`get_model`) always raises the store error (after the
resident-path timestamp update), and evict (`_unload_model`) raises it exactly
when the name is resident (with both dictionary entries already removed);
only release (the `finally` timestamp refresh), which never touches the
store, is unaffected. -/
theorem C2_amended_store_errors_propagate (env env2 : Env) (name : String)
    (st : CacheState) (hwf : WF st) (hdown : env.redisOk = false)
    (hnow : env2.now = env.now) :
    (getModel env name st).res = .error .redisError ∧
    ((lookupKey name st.residents).isSome →
      (unloadModel env name st).res = .error .redisError ∧
      (unloadModel env name st).state =
        ⟨eraseKey name st.residents, eraseKey name st.lastUsed⟩) ∧
    ((lookupKey name st.residents).isNone →
      unloadModel env name st = ⟨.ok (), st, []⟩) ∧
    releaseModel env name st = releaseModel env2 name st := by
  refine ⟨?_, ?_, ?_, ?_⟩
  · rcases hlr : lookupKey name st.residents with _ | v
    · simp [getModel, hlr, hdown]
    · simp [getModel, hlr, hdown]
  · intro hsome
    rcases hlr : lookupKey name st.residents with _ | v
    · rw [hlr] at hsome
      simp at hsome
    · have hmr : name ∈ keysOf st.residents := by
        rw [← isSome_lookupKey, hlr]
        rfl
      have hmu : name ∈ keysOf st.lastUsed := (hwf.2.2 name).mp hmr
      have husome : (lookupKey name st.lastUsed).isSome := (isSome_lookupKey _ _).mpr hmu
      rcases hu : lookupKey name st.lastUsed with _ | w
      · rw [hu] at husome
        simp at husome
      · constructor <;> simp [unloadModel, hlr, hu, hdown]
  · intro hnone
    rcases hlr : lookupKey name st.residents with _ | v
    · simp [unloadModel, hlr]
    · rw [hlr] at hnone
      simp at hnone
  · rcases hlr : lookupKey name st.residents with _ | v
    · simp [releaseModel, hlr]
    · simp [releaseModel, hlr, hnow]

theorem C2_amended_witness :
    (getModel envDown "ANI2x" stOne).res = .error .redisError ∧
    ((lookupKey "ANI2x" stOne.residents).isSome →
      (unloadModel envDown "ANI2x" stOne).res = .error .redisError ∧
      (unloadModel envDown "ANI2x" stOne).state =
        ⟨eraseKey "ANI2x" stOne.residents, eraseKey "ANI2x" stOne.lastUsed⟩) ∧
    ((lookupKey "ANI2x" stOne.residents).isNone →
      unloadModel envDown "ANI2x" stOne = ⟨.ok (), stOne, []⟩) ∧
    releaseModel envDown "ANI2x" stOne = releaseModel envUp "ANI2x" stOne :=
  C2_amended_store_errors_propagate envDown envUp "ANI2x" stOne stOne_WF rfl rfl

/-- Counterexample to claim C3: acquiring an unregistered name on a full cache
raises `UnknownModel` but also evicts the least-recently-used resident (the
capacity loop of `_load_model` runs before the name is validated): the
resident set is mutated. -/
theorem C3_counterexample :
    (getModel envUp "bogus" stTwo).res = .error .unknownModel ∧
    (getModel envUp "bogus" stTwo).state.residents = [("ANI1x", 8)] ∧
    stTwo.residents ≠ [("ANI1x", 8)] :=
  ⟨by decide, by decide, by decide⟩

/-- Amended claim C3: acquire of a name absent from the registry raises
`UnknownModel` and never inserts an entry for that name, but the
pressure/capacity eviction loops of `_load_model` run before the name check,
so resident entries may be evicted: the final resident list is only
guaranteed to be a sublist of the original. -/
theorem C3_amended_unknown_model (env : Env) (name : String) (st : CacheState)
    (hwf : WF st) (hr : env.redisOk = true) (hmax : 0 < env.maxLoaded)
    (hreg : registered name = false) (hnres : lookupKey name st.residents = none) :
    (getModel env name st).res = .error .unknownModel ∧
    lookupKey name (getModel env name st).state.residents = none ∧
    List.Sublist (getModel env name st).state.residents st.residents := by
  have h1 := @loadPressure_ok env st hwf hr
  have hwf1 := @loadPressure_WF env st hwf
  have h2 := @loadCapacity_ok env _ hwf1 hr hmax
  have hsub : List.Sublist (loadModel env name st).state.residents st.residents := by
    simp only [loadModel, h1, h2, hreg, Bool.false_eq_true, if_false]
    exact List.Sublist.trans
      (loadCapacity_residents_sublist env (loadPressure env st).state)
      (loadPressure_residents_sublist env st)
  have hres : (loadModel env name st).res = .error .unknownModel := by
    simp only [loadModel, h1, h2, hreg, Bool.false_eq_true, if_false]
  have hlook : lookupKey name (loadModel env name st).state.residents = none := by
    rw [lookupKey_eq_none_iff]
    intro hmem
    exact (lookupKey_eq_none_iff name st.residents).mp hnres
      ((List.Sublist.map Prod.fst hsub).subset hmem)
  refine ⟨?_, ?_, ?_⟩ <;> simp only [getModel, hnres, hr, if_true]
  · exact hres
  · exact hlook
  · exact hsub

theorem C3_amended_witness :
    (getModel envUp "bogus" stTwo).res = .error .unknownModel ∧
    lookupKey "bogus" (getModel envUp "bogus" stTwo).state.residents = none ∧
    List.Sublist (getModel envUp "bogus" stTwo).state.residents stTwo.residents :=
  C3_amended_unknown_model envUp "bogus" stTwo stTwo_WF rfl (by decide) (by decide)
    (by decide)

/-- Counterexample to claim C8: acquiring a registered, non-resident model
whose loader raises, on a full cache, surfaces `LoadFailure` but the resident
count drops from 2 to 1 — the capacity loop evicted before the loader ran, so
the count is not unchanged. -/
theorem C8_counterexample :
    (getModel envLoaderFails "ANI1ccx" stTwo).res = .error .loadFailure ∧
    (getModel envLoaderFails "ANI1ccx" stTwo).state.residents.length = 1 ∧
    stTwo.residents.length = 2 :=
  ⟨by decide, by decide, by decide⟩

/-- Amended claim C8: when the loader raises during acquire of a registered,
non-resident model, `LoadFailure` surfaces, no resident entry for that name
exists afterwards, and the resident count never increases — but it may
decrease, because the pressure/capacity eviction loops run before the loader
is invoked. -/
theorem C8_amended_failed_load (env : Env) (name : String) (st : CacheState)
    (hwf : WF st) (hr : env.redisOk = true) (hmax : 0 < env.maxLoaded)
    (hreg : registered name = true) (hload : env.loaderOk name = false)
    (hnres : lookupKey name st.residents = none) :
    (getModel env name st).res = .error .loadFailure ∧
    lookupKey name (getModel env name st).state.residents = none ∧
    List.Sublist (getModel env name st).state.residents st.residents ∧
    (getModel env name st).state.residents.length ≤ st.residents.length := by
  have h1 := @loadPressure_ok env st hwf hr
  have hwf1 := @loadPressure_WF env st hwf
  have h2 := @loadCapacity_ok env _ hwf1 hr hmax
  have hsub : List.Sublist (loadModel env name st).state.residents st.residents := by
    simp only [loadModel, h1, h2, hreg, if_true, hload, Bool.false_eq_true, if_false]
    exact List.Sublist.trans
      (loadCapacity_residents_sublist env (loadPressure env st).state)
      (loadPressure_residents_sublist env st)
  have hres : (loadModel env name st).res = .error .loadFailure := by
    simp only [loadModel, h1, h2, hreg, if_true, hload, Bool.false_eq_true, if_false]
  have hlook : lookupKey name (loadModel env name st).state.residents = none := by
    rw [lookupKey_eq_none_iff]
    intro hmem
    exact (lookupKey_eq_none_iff name st.residents).mp hnres
      ((List.Sublist.map Prod.fst hsub).subset hmem)
  refine ⟨?_, ?_, ?_, ?_⟩ <;> simp only [getModel, hnres, hr, if_true]
  · exact hres
  · exact hlook
  · exact hsub
  · exact hsub.length_le

theorem C8_amended_witness :
    (getModel envLoaderFails "ANI1ccx" stTwo).res = .error .loadFailure ∧
    lookupKey "ANI1ccx" (getModel envLoaderFails "ANI1ccx" stTwo).state.residents = none ∧
    List.Sublist (getModel envLoaderFails "ANI1ccx" stTwo).state.residents
      stTwo.residents ∧
    (getModel envLoaderFails "ANI1ccx" stTwo).state.residents.length ≤
      stTwo.residents.length :=
  C8_amended_failed_load envLoaderFails "ANI1ccx" stTwo stTwo_WF rfl (by decide)
    (by decide) (by decide) (by decide)

theorem loadModel_trace_split {env : Env} {name : String} {st : CacheState}
    (hwf : WF st) (hr : env.redisOk = true) (hmax : 0 < env.maxLoaded)
    (hreg : registered name = true) :
    ∃ post, (loadModel env name st).trace =
      (loadPressure env st).trace ++
        (loadCapacity env (loadPressure env st).state).trace ++
        Event.loaderCall name :: post := by
  have h1 := @loadPressure_ok env st hwf hr
  have hwf1 := @loadPressure_WF env st hwf
  have h2 := @loadCapacity_ok env _ hwf1 hr hmax
  by_cases hload : env.loaderOk name = true
  · refine ⟨[Event.redisSetex name], ?_⟩
    simp only [loadModel, h1, h2, hreg, if_true, hload, hr]
  · rw [Bool.not_eq_true] at hload
    refine ⟨[], ?_⟩
    simp only [loadModel, h1, h2, hreg, if_true, hload, Bool.false_eq_true, if_false]

theorem loadPressure_trace_first_evict {env : Env} {st : CacheState} (hwf : WF st)
    (hr : env.redisOk = true) (hg : env.threshold < env.gauge 0)
    (hne : st.residents ≠ []) :
    ∃ k t, (loadPressure env st).trace = Event.evict k :: t := by
  obtain ⟨k, w, hargm, hmem, hmin, hkr, heva⟩ := @evictOldest_spec env _ hwf hne
  have hok1 := @evictOldest_res_ok env _ hwf hr
  have hcond : env.threshold < env.gauge 0 ∧ st.residents ≠ [] := ⟨hg, hne⟩
  have hok2 : (unloadModel env k st).res = .ok () := by
    rw [heva] at hok1
    exact hok1
  refine ⟨k, (unloadModel env k st).trace ++
    (pressureLoop env st.residents.length (0 + 1) (evictOldest env st).state).trace, ?_⟩
  simp only [loadPressure, pressureLoop, if_pos hcond, heva, hok2, List.cons_append]

/-- Claim C5: if the resource gauge reads above the configured pressure
threshold and the resident set is non-empty, the next acquire (`get_model`)
of a non-resident registered model evicts at least one resident entry before
invoking the loader: in the acquire trace, an eviction event precedes the
loader invocation. -/
theorem C5_pressure_evicts_before_load (env : Env) (name : String) (st : CacheState)
    (hwf : WF st) (hr : env.redisOk = true) (hmax : 0 < env.maxLoaded)
    (hg : env.threshold < env.gauge 0) (hne : st.residents ≠ [])
    (hreg : registered name = true) (hnres : lookupKey name st.residents = none) :
    ∃ pre post k, (getModel env name st).trace = pre ++ Event.loaderCall name :: post ∧
      Event.evict k ∈ pre := by
  obtain ⟨k, t1, hP⟩ := loadPressure_trace_first_evict hwf hr hg hne
  obtain ⟨post, hT⟩ := loadModel_trace_split hwf hr hmax hreg
  refine ⟨Event.redisGet name :: ((loadPressure env st).trace ++
    (loadCapacity env (loadPressure env st).state).trace), post, k, ?_, ?_⟩
  · simp only [getModel, hnres, hr, if_true]
    rw [hT, List.cons_append, List.append_assoc]
  · rw [hP]
    simp

theorem C5_pressure_evicts_before_load_witness :
    ∃ pre post k, (getModel envHot "ANI1x" stOne).trace =
      pre ++ Event.loaderCall "ANI1x" :: post ∧ Event.evict k ∈ pre :=
  C5_pressure_evicts_before_load envHot "ANI1x" stOne stOne_WF rfl (by decide)
    (by decide) (by decide) (by decide) (by decide)
